import Mathlib

/-
Verification of the time-sequence event model in `mugen/events.py`:
`Event`, `EventList` (split/merge retiming, grouping) and `EventGroupList`.

Modelling conventions:
* Python floats are modelled by exact rationals `ℚ`; the concrete values in
  the development (halves, thirds of small integers) are exact either way.
* The concrete kind of an event (its Python `__class__.__name__`) is a
  `kind : String` field; `Event.__dict__` holds only `location` and
  `duration`, so the kind is *not* part of `__dict__`.
* A Python `float` speed is normalized to an exact `Fraction` by the
  `convert_float_to_fraction` decorator (a collaborator outside `src/`,
  specified as a ratio-normalization converter), so `speed_multiply` takes
  a `ℚ` whose `num`/`den` model `Fraction.numerator`/`Fraction.denominator`.
* Methods that can raise return `Except Err _`; methods whose bodies contain
  no raise are still written with explicit `.ok` results where an error
  class is part of the contract under scrutiny.
* `MugenList` adds only repr helpers to `list`; `EventList` is modelled as a
  `List Event` plus the `end` attribute (named `end_`, `end` is reserved).
-/

namespace Mugen

/-- Error classes of the embedded code: `ValueError` raised by the
`requires_end` guard, `AttributeError` raised when a method is called on
`None`. -/
inductive Err where
  | valueError : Err
  | attributeError : Err
  deriving DecidableEq

instance {α β : Type} [DecidableEq α] [DecidableEq β] : DecidableEq (Except α β) := fun a b =>
  match a, b with
  | .error x, .error y => decidable_of_iff (x = y) (by simp)
  | .error _, .ok _ => isFalse (by simp)
  | .ok _, .error _ => isFalse (by simp)
  | .ok x, .ok y => decidable_of_iff (x = y) (by simp)

/-- An event in a time sequence: `kind` is the concrete class name
(`__class__.__name__`), `location` and `duration` are the instance
attributes set by `Event.__init__` (seconds). -/
structure Event where
  kind : String
  location : ℚ
  duration : ℚ
  deriving DecidableEq

/-- The auto-conversion `Event(t)` applied to a raw time literal: base kind,
duration 0. -/
def mkE (t : ℚ) : Event := ⟨"Event", t, 0⟩

/-- Models `Event.__eq__`: `self.__dict__ == other.__dict__` compares the
attribute dictionaries `{location, duration}`; the class is not in
`__dict__`. -/
def Event.eq (a b : Event) : Bool :=
  a.location == b.location && a.duration == b.duration

/-- Python list `==` on two event lists: same length, elementwise
`Event.__eq__`. -/
def eventsEq : List Event → List Event → Bool
  | [], [] => true
  | a :: xs, b :: ys => Event.eq a b && eventsEq xs ys
  | _, _ => false

/-- An `EventList`: the underlying list contents plus the `end` attribute. -/
structure EventList where
  events : List Event
  end_ : Option ℚ
  deriving DecidableEq

/-- Models `EventList.__eq__`: `super().__eq__(other) and self.end ==
other.end`. -/
def EventList.eq (a b : EventList) : Bool :=
  eventsEq a.events b.events && a.end_ == b.end_

/-- `EventList.locations`. -/
def EventList.locations (l : EventList) : List ℚ := l.events.map Event.location

/-- Consecutive differences against a running previous value. -/
def intervalsAux : ℚ → List ℚ → List ℚ
  | _, [] => []
  | prev, x :: xs => (x - prev) :: intervalsAux x xs

/-- Modelled from the spec: the consecutive-difference helper
`mugen.utilities.location.intervals_from_locations` is not under `src/`.
Per the spec, `segment_durations` applies it to `locations + [end]` and gets
`n+1` values whose sum is `end`, so the first output value is the first
input value itself (its difference from an implicit leading 0) and every
later value is the difference from its predecessor. -/
def intervals_from_locations (locs : List ℚ) : List ℚ := intervalsAux 0 locs

/-- Models `EventList.segment_durations` behind the `requires_end` guard:
`if not self.end: raise ValueError(...)`, so `end is None` and `end == 0`
both raise; otherwise the intervals of `locations + [end]` are returned. -/
def EventList.segment_durations (l : EventList) : Except Err (List ℚ) :=
  match l.end_ with
  | none => .error .valueError
  | some e =>
    if e = 0 then .error .valueError
    else .ok (intervals_from_locations (l.locations ++ [e]))

/-- An `add_events` item: a raw time literal or an already-built `Event`. -/
def toEvent : ℚ ⊕ Event → Event
  | .inl t => mkE t
  | .inr e => e

/-- Models `bisect.insort` under `Event.__lt__` (comparison by `location`
only): insert before the first strictly greater element, i.e. after any
existing events at the same location. -/
def insort (e : Event) : List Event → List Event
  | [] => [e]
  | f :: fs => if e.location < f.location then e :: f :: fs else f :: insort e fs

/-- Models `EventList.add_events`: convert each raw item, then
`bisect.insort(self, event)` in order. -/
def EventList.add_events (l : EventList) (items : List (ℚ ⊕ Event)) : EventList :=
  ⟨items.foldl (fun acc it => insort (toEvent it) acc) l.events, l.end_⟩

/-- One step of the type-run partition: prepend `e` to the first run when it
has `e`'s kind, else start a new run. -/
def groupStep (e : Event) : List (List Event) → List (List Event)
  | (f :: g) :: gs =>
    if e.kind = f.kind then (e :: f :: g) :: gs else [e] :: (f :: g) :: gs
  | gs => [e] :: gs

/-- Models `itertools.groupby(self, key=attrgetter("__class__"))`: partition
the list into maximal contiguous runs of identical concrete kind. -/
def groupByKind : List Event → List (List Event)
  | [] => []
  | e :: es => groupStep e (groupByKind es)

/-- Kind of the first event of a run (used to compare adjacent runs). -/
def headKind : List Event → String
  | [] => ""
  | e :: _ => e.kind

/-- The splinter loop of `EventList._split`: `pieces_per_split - 1` deep
copies of `event`, each advancing the running `location` by
`interval_piece`. -/
def splinters (e : Event) (step : ℚ) : ℕ → ℚ → List Event
  | 0, _ => []
  | n + 1, loc => { e with location := loc + step } :: splinters e step n (loc + step)

/-- Per-run body of `EventList._split`: keep each event, and after every
event but the run's last, append the splinters toward the next event. -/
def splitRun (p : ℕ) : List Event → List Event
  | [] => []
  | [e] => [e]
  | e :: f :: rest =>
    e :: (splinters e ((f.location - e.location) / (p : ℚ)) (p - 1) e.location
      ++ splitRun p (f :: rest))

/-- Models `EventList._split`: group by type, split each run, reassemble. -/
def splitEvents (p : ℕ) (es : List Event) : List Event :=
  ((groupByKind es).map (splitRun p)).flatten

/-- The indexed filter loop of `EventList._merge`:
`if (index - offset) % pieces_per_merge == 0`. -/
def mergeAux (k : ℕ) (o : ℤ) : ℕ → List Event → List Event
  | _, [] => []
  | i, e :: es =>
    if ((i : ℤ) - o) % (k : ℤ) = 0 then e :: mergeAux k o (i + 1) es
    else mergeAux k o (i + 1) es

/-- Per-run body of `EventList._merge`: a run of length 1 is kept as is,
otherwise the indexed filter runs from index 0. -/
def mergeRun (k : ℕ) (o : ℤ) (run : List Event) : List Event :=
  if run.length = 1 then run else mergeAux k o 0 run

/-- Models `EventList._merge` (after its `offset = 0` defaulting): group by
type, filter each run, reassemble. -/
def mergeEvents (k : ℕ) (o : ℤ) (es : List Event) : List Event :=
  ((groupByKind es).map (mergeRun k o)).flatten

/-- Models `EventList.speed_multiply` after `Fraction` normalization:
`speed == 0` clears the contents, `speed > 1` splits by `speed.numerator`,
`speed < 1` merges by `speed.denominator` (offset defaulting to 0 inside
`_merge`); no branch of the source raises, and `self[:] = ...` keeps `end`
unchanged. -/
def EventList.speed_multiply (l : EventList) (speed : ℚ) (offset : Option ℤ) :
    Except Err EventList :=
  if speed = 0 then .ok ⟨[], l.end_⟩
  else if 1 < speed then .ok ⟨splitEvents speed.num.toNat l.events, l.end_⟩
  else if speed < 1 then .ok ⟨mergeEvents speed.den (offset.getD 0) l.events, l.end_⟩
  else .ok l

/-- Models `EventList.type`: `None` when empty, the unique class name when
`len(set(names)) == 1`, `"mixed"` otherwise. -/
def EventList.type (l : EventList) : Option String :=
  match l.events with
  | [] => none
  | e :: es => if es.all (fun f => f.kind == e.kind) then some e.kind else some "mixed"

/-- An `EventGroupList`: the groups plus the tracked selected subset. -/
structure EventGroupList where
  groups : List EventList
  selected : List EventList
  deriving DecidableEq

/-- Models `EventList.group_by_type`: the type-run partition wrapped as
`EventList`s sharing this list's `end`; all groups selected when
`select_types` is empty, otherwise the groups whose `type` is listed. -/
def EventList.group_by_type (l : EventList) (selectTypes : List String) : EventGroupList :=
  let gs := (groupByKind l.events).map (fun run => EventList.mk run l.end_)
  let sel :=
    if selectTypes.isEmpty then gs
    else gs.filter (fun g =>
      match g.type with
      | some t => selectTypes.contains t
      | none => false)
  ⟨gs, sel⟩

/-- Models `EventGroupList.end`: `self[-1].end if self else None`. -/
def EventGroupList.end_ (gl : EventGroupList) : Option ℚ :=
  match gl.groups.getLast? with
  | none => none
  | some g => g.end_

/-- Models `EventGroupList.flatten`. Modelled from the spec:
`mugen.lists.flatten` is not under `src/`; per the spec, `flatten()`
concatenates all groups' events, in group order then in-group order, and the
result's `end` is this container's `end`. -/
def EventGroupList.flatten (gl : EventGroupList) : EventList :=
  ⟨(gl.groups.map EventList.events).flatten, gl.end_⟩

/-- Models `EventGroupList.speed_multiply`'s `zip_longest` loop over the
groups: the shorter sequences are padded with `None`; a padded `speed`
becomes `1`; a padded *group* is `None`, and `None.speed_multiply` raises
`AttributeError`. -/
def speedMultiplyGroups : List EventList → List ℚ → List ℤ → Except Err (List EventList)
  | [], [], [] => .ok []
  | [], _, _ => .error .attributeError
  | g :: gs, ss, os => do
    let g' ← g.speed_multiply (ss.headD 1) os.head?
    let rest ← speedMultiplyGroups gs ss.tail os.tail
    .ok (g' :: rest)

/-- `EventGroupList.speed_multiply`, returning the retimed groups. -/
def EventGroupList.speed_multiply (gl : EventGroupList) (speeds : List ℚ)
    (offsets : List ℤ) : Except Err (List EventList) :=
  speedMultiplyGroups gl.groups speeds offsets

/-- The split rule as the spec words it: keep each event of a run; after
every non-final event synthesize `p - 1` events of the same kind and
duration at evenly spaced locations with step `(next - cur) / p`. -/
def splitRunSpec (p : ℕ) : List Event → List Event
  | [] => []
  | [e] => [e]
  | e :: f :: rest =>
    e :: ((List.range (p - 1)).map (fun j =>
        { e with location := e.location + ((j : ℚ) + 1) * ((f.location - e.location) / (p : ℚ)) })
      ++ splitRunSpec p (f :: rest))

/-- Whole-list split as the spec words it. -/
def splitEventsSpec (p : ℕ) (es : List Event) : List Event :=
  ((groupByKind es).map (splitRunSpec p)).flatten

/-- The merge rule as the spec words it: keep a single-event run unchanged;
in a longer run keep exactly the events whose 0-indexed run position `pos`
satisfies `(pos - o) % k = 0`. -/
def mergeRunSpec (k : ℕ) (o : ℤ) (run : List Event) : List Event :=
  if run.length = 1 then run
  else (run.enum.filter (fun ie => ((ie.1 : ℤ) - o) % (k : ℤ) = 0)).map Prod.snd

/-- Whole-list merge as the spec words it. -/
def mergeEventsSpec (k : ℕ) (o : ℤ) (es : List Event) : List Event :=
  ((groupByKind es).map (mergeRunSpec k o)).flatten

theorem groupByKind_cons (e : Event) (es : List Event) :
    groupByKind (e :: es) = groupStep e (groupByKind es) := rfl

theorem groupByKind_flatten : ∀ (es : List Event), (groupByKind es).flatten = es
  | [] => rfl
  | e :: es => by
    have ih := groupByKind_flatten es
    rw [groupByKind_cons]
    cases hg : groupByKind es with
    | nil =>
      rw [hg] at ih
      simp only [List.flatten_nil] at ih
      simp [groupStep, ← ih]
    | cons g gs =>
      rw [hg] at ih
      cases g with
      | nil =>
        simp only [List.flatten_cons, List.nil_append] at ih
        simp [groupStep, ih]
      | cons f g' =>
        simp only [groupStep]
        split
        · simp only [List.flatten_cons] at ih ⊢
          simp [ih]
        · simp only [List.flatten_cons] at ih ⊢
          simp [ih]

theorem groupByKind_chunks : ∀ (es : List Event),
    (∀ g ∈ groupByKind es, g ≠ [] ∧ ∀ x ∈ g, x.kind = headKind g) ∧
    List.Chain' (fun g h => headKind g ≠ headKind h) (groupByKind es)
  | [] => by simp [groupByKind]
  | e :: es => by
    obtain ⟨ih1, ih2⟩ := groupByKind_chunks es
    rw [groupByKind_cons]
    cases hg : groupByKind es with
    | nil =>
      simp only [groupStep]
      constructor
      · intro g hgmem
        simp only [List.mem_singleton] at hgmem
        subst hgmem
        refine ⟨by simp, ?_⟩
        intro x hx
        simp only [List.mem_singleton] at hx
        subst hx
        rfl
      · simp
    | cons g gs =>
      rw [hg] at ih1 ih2
      cases g with
      | nil => exact absurd (ih1 [] (by simp)).1 (by simp)
      | cons f g' =>
        simp only [groupStep]
        by_cases hk : e.kind = f.kind
        · rw [if_pos hk]
          constructor
          · intro g hgmem
            rcases List.mem_cons.mp hgmem with rfl | hgmem
            · refine ⟨by simp, ?_⟩
              intro x hx
              rcases List.mem_cons.mp hx with rfl | hx
              · rfl
              · have hxk := (ih1 (f :: g') (by simp)).2 x hx
                simpa [headKind, hk] using hxk
            · exact ih1 g (by simp [hgmem])
          · rcases List.chain'_cons'.mp ih2 with ⟨hrel, hchain⟩
            refine List.chain'_cons'.mpr ⟨?_, hchain⟩
            intro b hb
            have hfb := hrel b hb
            simpa [headKind, hk] using hfb
        · rw [if_neg hk]
          constructor
          · intro g hgmem
            rcases List.mem_cons.mp hgmem with rfl | hgmem
            · refine ⟨by simp, ?_⟩
              intro x hx
              simp only [List.mem_singleton] at hx
              subst hx
              rfl
            · exact ih1 g hgmem
          · refine List.chain'_cons'.mpr ⟨?_, ih2⟩
            intro b hb
            simp only [List.head?_cons, Option.mem_def, Option.some.injEq] at hb
            subst hb
            simpa [headKind] using hk

theorem groupByKind_homog : ∀ (es : List Event) (c : String),
    (∀ x ∈ es, x.kind = c) → es ≠ [] → groupByKind es = [es]
  | [], _, _, h => absurd rfl h
  | [e], _, _, _ => by simp [groupByKind, groupStep]
  | e :: f :: rest, c, hall, _ => by
    have ih := groupByKind_homog (f :: rest) c
      (fun x hx => hall x (List.mem_cons.mpr (Or.inr hx))) (by simp)
    rw [groupByKind_cons, ih]
    have hk : e.kind = f.kind := by
      rw [hall e (by simp), hall f (by simp)]
    simp [groupStep, hk]

theorem events_of_mapped (gs : List (List Event)) (x : Option ℚ) :
    (gs.map (fun run => EventList.mk run x)).map EventList.events = gs := by
  induction gs with
  | nil => rfl
  | cons g gs ih => simp only [List.map_cons, ih]

theorem end_of_mapped : ∀ (gs : List (List Event)) (x : Option ℚ) (sel : List EventList),
    gs ≠ [] →
    EventGroupList.end_ ⟨gs.map (fun run => EventList.mk run x), sel⟩ = x
  | [], _, _, h => absurd rfl h
  | [g], x, sel, _ => by simp [EventGroupList.end_]
  | g :: g' :: gs, x, sel, _ => by
    have ih := end_of_mapped (g' :: gs) x sel (by simp)
    simp only [EventGroupList.end_, List.map_cons] at ih ⊢
    rw [List.getLast?_cons_cons]
    exact ih

theorem intervalsAux_length (xs : List ℚ) :
    ∀ prev, (intervalsAux prev xs).length = xs.length := by
  induction xs with
  | nil => intro prev; rfl
  | cons x xs ih => intro prev; simp [intervalsAux, ih]

theorem intervalsAux_sum (xs : List ℚ) :
    ∀ prev, (intervalsAux prev xs).sum = xs.getLastD prev - prev := by
  induction xs with
  | nil => intro prev; simp [intervalsAux]
  | cons x xs ih =>
    intro prev
    simp only [intervalsAux, List.sum_cons, ih x, List.getLastD_cons]
    ring

theorem mem_insort (x e : Event) : ∀ (l : List Event), x ∈ insort e l → x = e ∨ x ∈ l
  | [] => by simp [insort]
  | f :: fs => by
    simp only [insort]
    split
    · simp only [List.mem_cons]; tauto
    · intro h
      rcases List.mem_cons.mp h with h | h
      · exact Or.inr (List.mem_cons.mpr (Or.inl h))
      · rcases mem_insort x e fs h with h' | h'
        · exact Or.inl h'
        · exact Or.inr (List.mem_cons.mpr (Or.inr h'))

theorem pairwise_insort (e : Event) : ∀ (l : List Event),
    List.Pairwise (fun a b => a.location ≤ b.location) l →
    List.Pairwise (fun a b => a.location ≤ b.location) (insort e l)
  | [], _ => by simp [insort]
  | f :: fs, h => by
    rcases List.pairwise_cons.mp h with ⟨hf, hfs⟩
    simp only [insort]
    split
    case isTrue hlt =>
      refine List.pairwise_cons.mpr ⟨?_, h⟩
      intro x hx
      rcases List.mem_cons.mp hx with rfl | hx
      · exact le_of_lt hlt
      · exact le_trans (le_of_lt hlt) (hf x hx)
    case isFalse hge =>
      refine List.pairwise_cons.mpr ⟨?_, pairwise_insort e fs hfs⟩
      intro x hx
      rcases mem_insort x e fs hx with rfl | hx
      · exact le_of_not_lt hge
      · exact hf x hx

theorem pairwise_foldl_insort : ∀ (items : List (ℚ ⊕ Event)) (es : List Event),
    List.Pairwise (fun a b => a.location ≤ b.location) es →
    List.Pairwise (fun a b => a.location ≤ b.location)
      (items.foldl (fun acc it => insort (toEvent it) acc) es)
  | [], _, h => h
  | it :: its, es, h => pairwise_foldl_insort its _ (pairwise_insort (toEvent it) es h)

/-- C3 counterexample: two events of different concrete kinds with identical
`location` and `duration` compare equal under `Event.__eq__` (which looks
only at `__dict__`), contradicting the claim that they are not equal. -/
theorem c3_counterexample :
    Event.eq ⟨"Beat", 1, 0⟩ ⟨"Silence", 1, 0⟩ = true ∧
    Event.kind ⟨"Beat", 1, 0⟩ ≠ Event.kind ⟨"Silence", 1, 0⟩ := by
  decide

/-- C3 (amended): `Event.__eq__` holds exactly when all `__dict__`
attributes (`location`, `duration`) agree; the concrete kind is not part of
`__dict__` and is not compared. -/
theorem c3_amended (a b : Event) :
    Event.eq a b = true ↔ (a.location = b.location ∧ a.duration = b.duration) := by
  simp [Event.eq]

/-- C4 counterexample: with `end` set to `0` the `requires_end` guard
(`if not self.end`) still raises, contradicting the claim that any set `end`
avoids the error. -/
theorem c4_counterexample :
    (EventList.mk [] (some 0)).segment_durations = .error .valueError ∧
    (EventList.mk [] (some 0)).end_ ≠ none := by
  decide

/-- C4 (amended): `segment_durations` fails with the `ValueError`-class
condition exactly when `end` is unset or set to `0` (the guard treats a
falsy `end` as missing); any nonzero `end` passes the guard. -/
theorem c4_amended (l : EventList) :
    (∃ err, l.segment_durations = .error err) ↔ (l.end_ = none ∨ l.end_ = some 0) := by
  unfold EventList.segment_durations
  cases hl : l.end_ with
  | none => simp
  | some e =>
    by_cases he : e = 0 <;> simp [he]

/-- C5 counterexample: with `end` set to `0` (a set value), the access
raises instead of returning `n+1` values summing to `end`. -/
theorem c5_counterexample :
    (EventList.mk [mkE 1] (some 0)).segment_durations = .error .valueError ∧
    (EventList.mk [mkE 1] (some 0)).end_ = some 0 := by
  decide

/-- C5 (amended): for an `EventList` with `n` events whose `end` is set to a
nonzero value, `segment_durations` returns the pairwise differences of
`locations + [end]`: exactly `n+1` values whose sum equals `end`. -/
theorem c5_amended (l : EventList) (e : ℚ) (h1 : l.end_ = some e) (h2 : e ≠ 0) :
    ∃ ds, l.segment_durations = .ok ds ∧
      ds.length = l.events.length + 1 ∧ ds.sum = e := by
  refine ⟨intervals_from_locations (l.locations ++ [e]), ?_, ?_, ?_⟩
  · unfold EventList.segment_durations
    rw [h1]
    simp [h2]
  · unfold intervals_from_locations
    rw [intervalsAux_length]
    simp [EventList.locations]
  · unfold intervals_from_locations
    rw [intervalsAux_sum]
    simp

theorem c5_witness :
    ∃ ds, (EventList.mk [mkE 0, mkE 1, mkE 2] (some 4)).segment_durations = .ok ds ∧
      ds.length = (EventList.mk [mkE 0, mkE 1, mkE 2] (some 4)).events.length + 1 ∧
      ds.sum = 4 :=
  c5_amended (EventList.mk [mkE 0, mkE 1, mkE 2] (some 4)) 4 rfl (by norm_num)

/-- C10: any `EventList` built from empty solely by `add_events` calls
(raw literals auto-converted) has non-decreasing `locations` after every
call — each element is placed by ordered insertion (`bisect.insort`), not
appended. -/
theorem c10_confirmed (batches : List (List (ℚ ⊕ Event))) :
    List.Pairwise (fun a b : ℚ => a ≤ b)
      ((batches.foldl EventList.add_events (EventList.mk [] none)).locations) := by
  have key : ∀ (bs : List (List (ℚ ⊕ Event))) (l : EventList),
      List.Pairwise (fun a b : Event => a.location ≤ b.location) l.events →
      List.Pairwise (fun a b : Event => a.location ≤ b.location)
        ((bs.foldl EventList.add_events l).events) := by
    intro bs
    induction bs with
    | nil => intro l h; exact h
    | cons b bs ih =>
      intro l h
      exact ih _ (pairwise_foldl_insort b l.events h)
  have h0 := key batches (EventList.mk [] none) (by simp)
  simpa [EventList.locations, List.pairwise_map] using h0

theorem splinters_eq_range (e : Event) (step : ℚ) :
    ∀ (n : ℕ) (loc : ℚ), splinters e step n loc =
      (List.range n).map (fun j => { e with location := loc + ((j : ℚ) + 1) * step })
  | 0, loc => by simp [splinters]
  | n + 1, loc => by
    rw [List.range_succ_eq_map, List.map_cons, List.map_map]
    show _ :: _ = _ :: _
    congr 1
    · simp
    · rw [splinters_eq_range e step n (loc + step)]
      refine List.map_congr_left ?_
      intro j hj
      simp only [Function.comp_apply]
      congr 1
      push_cast
      ring

theorem splitRun_eq_spec (p : ℕ) : ∀ (run : List Event), splitRun p run = splitRunSpec p run
  | [] => rfl
  | [_] => rfl
  | e :: f :: rest => by
    simp only [splitRun, splitRunSpec]
    rw [splinters_eq_range, splitRun_eq_spec p (f :: rest)]

theorem splitEvents_eq_spec (p : ℕ) (es : List Event) :
    splitEvents p es = splitEventsSpec p es := by
  unfold splitEvents splitEventsSpec
  rw [List.map_congr_left (fun g _ => splitRun_eq_spec p g)]

theorem mergeAux_enumFrom (k : ℕ) (o : ℤ) :
    ∀ (run : List Event) (i : ℕ),
      mergeAux k o i run =
        ((List.enumFrom i run).filter
          (fun ie => ((ie.1 : ℤ) - o) % (k : ℤ) = 0)).map Prod.snd
  | [], _ => rfl
  | e :: es, i => by
    simp only [mergeAux, List.enumFrom, List.filter_cons]
    by_cases h : ((i : ℤ) - o) % (k : ℤ) = 0 <;>
      simp [h, mergeAux_enumFrom k o es (i + 1)]

theorem mergeRun_eq_spec (k : ℕ) (o : ℤ) (run : List Event) :
    mergeRun k o run = mergeRunSpec k o run := by
  by_cases h : run.length = 1 <;>
    simp [mergeRun, mergeRunSpec, h, mergeAux_enumFrom k o run 0, List.enum]

theorem mergeEvents_eq_spec (k : ℕ) (o : ℤ) (es : List Event) :
    mergeEvents k o es = mergeEventsSpec k o es := by
  unfold mergeEvents mergeEventsSpec
  rw [List.map_congr_left (fun g _ => mergeRun_eq_spec k o g)]

theorem one_half_num : ((1 : ℚ)/2).num = 1 := by
  have h : ((1 : ℚ)/2) = ((1 : ℤ) : ℚ) / ((2 : ℤ) : ℚ) := by norm_num
  rw [h, Rat.num_div_eq_of_coprime (by norm_num) (by simp [Nat.coprime_one_left])]

theorem one_half_den : ((1 : ℚ)/2).den = 2 := by
  have h : ((1 : ℚ)/2) = ((1 : ℤ) : ℚ) / ((2 : ℤ) : ℚ) := by norm_num
  have h2 := Rat.den_div_eq_of_coprime (a := 1) (b := 2) (by norm_num)
    (by simp [Nat.coprime_one_left])
  rw [h]
  exact_mod_cast h2

theorem speed_multiply_split (l : EventList) (q : ℚ) (o : Option ℤ)
    (h1 : q.den = 1) (h2 : 1 < q.num) :
    l.speed_multiply q o = .ok ⟨splitEvents q.num.toNat l.events, l.end_⟩ := by
  have hq1 : (1 : ℚ) < q := by
    have hqq : ((q.num : ℚ)) = q := (Rat.den_eq_one_iff q).mp h1
    rw [← hqq]
    exact_mod_cast h2
  have hq0 : q ≠ 0 := ne_of_gt (zero_lt_one.trans hq1)
  unfold EventList.speed_multiply
  rw [if_neg hq0, if_pos hq1]

theorem speed_multiply_merge (l : EventList) (q : ℚ) (o : Option ℤ)
    (h1 : q.num = 1) (h2 : 1 < q.den) :
    l.speed_multiply q o = .ok ⟨mergeEvents q.den (o.getD 0) l.events, l.end_⟩ := by
  have hlt : q < 1 := Rat.lt_one_iff_num_lt_denom.mpr (by rw [h1]; exact_mod_cast h2)
  have h0 : q ≠ 0 := Rat.num_ne_zero.mp (by rw [h1]; exact one_ne_zero)
  have hn1 : ¬ (1 : ℚ) < q := not_lt.mpr (le_of_lt hlt)
  unfold EventList.speed_multiply
  rw [if_neg h0, if_neg hn1, if_pos hlt]

/-- C6: for integer speed `p > 1` (a rational with denominator 1 and
numerator `> 1`), `speed_multiply` replaces the contents by the spec's
split rule — partition into maximal same-kind runs, keep single-event runs,
keep every event and synthesize `p - 1` evenly spaced copies after each
non-final event of a run — and the concrete example
`EventList([0,1,2,3], end=4).speed_multiply(2)` yields locations
`[0, 0.5, 1, 1.5, 2, 2.5, 3]`. -/
theorem c6_confirmed (l : EventList) (q : ℚ) (h1 : q.den = 1) (h2 : 1 < q.num) :
    l.speed_multiply q none = .ok ⟨splitEventsSpec q.num.toNat l.events, l.end_⟩ ∧
    ((EventList.mk [mkE 0, mkE 1, mkE 2, mkE 3] (some 4)).speed_multiply 2
        none).toOption.map EventList.locations =
      some [0, 1/2, 1, 3/2, 2, 5/2, 3] := by
  constructor
  · rw [speed_multiply_split l q none h1 h2, splitEvents_eq_spec]
  · rw [speed_multiply_split _ 2 none rfl (by decide)]
    simp only [Except.toOption, Option.map]
    simp [EventList.locations, splitEvents, groupByKind, groupStep, mkE, splitRun, splinters]
    norm_num

theorem c6_witness :
    (EventList.mk [mkE 0] none).speed_multiply 2 none =
      .ok ⟨splitEventsSpec (2 : ℚ).num.toNat (EventList.mk [mkE 0] none).events,
        (EventList.mk [mkE 0] none).end_⟩ ∧
    ((EventList.mk [mkE 0, mkE 1, mkE 2, mkE 3] (some 4)).speed_multiply 2
        none).toOption.map EventList.locations =
      some [0, 1/2, 1, 3/2, 2, 5/2, 3] :=
  c6_confirmed (EventList.mk [mkE 0] none) 2 rfl (by decide)

/-- C7: for a unit-fraction speed `1/k` with `k > 1` (a rational with
numerator 1 and denominator `> 1`) and phase offset `o` (defaulting to 0
when absent), `speed_multiply` keeps, within every maximal same-kind run of
length other than 1, exactly the events at run positions `pos` with
`(pos - o) % k == 0`, keeps single-event runs unchanged, never crossing run
boundaries; `EventList([0,1,2,3], end=4).speed_multiply(1/2, offset=0)`
yields locations `[0, 2]`. -/
theorem c7_confirmed (l : EventList) (q : ℚ) (o : ℤ) (h1 : q.num = 1) (h2 : 1 < q.den) :
    l.speed_multiply q (some o) = .ok ⟨mergeEventsSpec q.den o l.events, l.end_⟩ ∧
    l.speed_multiply q none = .ok ⟨mergeEventsSpec q.den 0 l.events, l.end_⟩ ∧
    ((EventList.mk [mkE 0, mkE 1, mkE 2, mkE 3] (some 4)).speed_multiply (1/2)
        (some 0)).toOption.map EventList.locations = some [0, 2] := by
  refine ⟨?_, ?_, ?_⟩
  · rw [speed_multiply_merge l q (some o) h1 h2, mergeEvents_eq_spec]
    rfl
  · rw [speed_multiply_merge l q none h1 h2, mergeEvents_eq_spec]
    rfl
  · rw [speed_multiply_merge _ (1/2) (some 0) one_half_num (by rw [one_half_den]; omega),
      one_half_den]
    decide

theorem c7_witness :
    (EventList.mk [mkE 0] none).speed_multiply (1/2) (some 0) =
      .ok ⟨mergeEventsSpec ((1:ℚ)/2).den 0 (EventList.mk [mkE 0] none).events,
        (EventList.mk [mkE 0] none).end_⟩ ∧
    (EventList.mk [mkE 0] none).speed_multiply (1/2) none =
      .ok ⟨mergeEventsSpec ((1:ℚ)/2).den 0 (EventList.mk [mkE 0] none).events,
        (EventList.mk [mkE 0] none).end_⟩ ∧
    ((EventList.mk [mkE 0, mkE 1, mkE 2, mkE 3] (some 4)).speed_multiply (1/2)
        (some 0)).toOption.map EventList.locations = some [0, 2] :=
  c7_confirmed (EventList.mk [mkE 0] none) (1/2) 0 one_half_num
    (by rw [one_half_den]; omega)

theorem three_half_num : ((3 : ℚ)/2).num = 3 := by
  have h : ((3 : ℚ)/2) = ((3 : ℤ) : ℚ) / ((2 : ℤ) : ℚ) := by norm_num
  rw [h, Rat.num_div_eq_of_coprime (by norm_num) (by norm_num)]

theorem three_half_den : ((3 : ℚ)/2).den = 2 := by
  have h : ((3 : ℚ)/2) = ((3 : ℤ) : ℚ) / ((2 : ℤ) : ℚ) := by norm_num
  have h2 := Rat.den_div_eq_of_coprime (a := 3) (b := 2) (by norm_num) (by norm_num)
  rw [h]
  exact_mod_cast h2

theorem speed_multiply_isOk (l : EventList) (q : ℚ) (o : Option ℤ) :
    ∃ m, l.speed_multiply q o = .ok m := by
  unfold EventList.speed_multiply
  repeat' split
  all_goals exact ⟨_, rfl⟩

theorem speed_multiply_one (l : EventList) (o : Option ℤ) :
    l.speed_multiply 1 o = .ok l := by
  unfold EventList.speed_multiply
  norm_num

/-- C1 counterexample: `speed_multiply(3/2)` — a ratio that is neither `0`,
an integer `> 1`, nor a unit fraction — is not rejected: the source has no
raise path, and the `speed > 1` branch silently splits by the numerator 3,
tripling instead of multiplying by 3/2. -/
theorem c1_counterexample :
    (EventList.mk [mkE 0, mkE 1] (some 2)).speed_multiply (3/2) none =
      .ok (EventList.mk [mkE 0, mkE (1/3), mkE (2/3), mkE 1] (some 2)) := by
  have h0 : (3/2 : ℚ) ≠ 0 := by norm_num
  have h1 : (1 : ℚ) < 3/2 := by norm_num
  unfold EventList.speed_multiply
  rw [if_neg h0, if_pos h1, three_half_num]
  have ht : (3 : ℤ).toNat = 3 := rfl
  rw [ht]
  norm_num [splitEvents, groupByKind, groupStep, mkE, splitRun, splinters]

/-- C1 (amended): a ratio that is neither `0`, nor an integer `> 1`, nor a
unit fraction `1/k` is *not* rejected — `speed_multiply` never raises; in
particular a ratio of exactly `1` silently leaves the list unchanged (a
ratio `> 1` splits by its numerator and a ratio `< 1` merges by its
denominator). -/
theorem c1_amended (l : EventList) (q : ℚ) (o : Option ℤ)
    (_h0 : q ≠ 0) (_hni : ¬(q.den = 1 ∧ 1 < q.num)) (_hnu : ¬(q.num = 1 ∧ 1 < q.den)) :
    (∃ m, l.speed_multiply q o = .ok m) ∧ l.speed_multiply 1 o = .ok l :=
  ⟨speed_multiply_isOk l q o, speed_multiply_one l o⟩

theorem c1_witness :
    (∃ m, (EventList.mk [mkE 0] none).speed_multiply (3/2) none = .ok m) ∧
      (EventList.mk [mkE 0] none).speed_multiply 1 none = .ok (EventList.mk [mkE 0] none) :=
  c1_amended (EventList.mk [mkE 0] none) (3/2) none (by norm_num)
    (by simp [three_half_den]) (by simp [three_half_num])

/-- C2 counterexample: with 1 group and 2 speeds, `zip_longest` pads the
*groups* with `None`, and `None.speed_multiply(...)` raises
`AttributeError` — the extra speed values are not ignored and the call does
not complete. -/
theorem c2_counterexample :
    speedMultiplyGroups [EventList.mk [mkE 0] none] [2, 2] [] =
      .error .attributeError := by
  have h := speed_multiply_split (EventList.mk [mkE 0] none) 2 none rfl (by decide)
  have hstep : speedMultiplyGroups [EventList.mk [mkE 0] none] [2, 2] [] =
      ((EventList.mk [mkE 0] none).speed_multiply 2 none).bind (fun x =>
        (speedMultiplyGroups [] [2] []).bind (fun rest => Except.ok (x :: rest))) := rfl
  rw [hstep, h]
  rfl

/-- C2 (amended): `EventGroupList.speed_multiply` pairs positionally; when
`speeds` and `offsets` are no longer than the group count the call completes,
groups beyond both sequences are retimed with the default speed `1` (a
no-op); but when `speeds` (or `offsets`) is *longer* than the group count,
`zip_longest` pads the group slot with `None` and the call fails with an
`AttributeError`-class condition instead of ignoring the extras. -/
theorem c2_amended (gs : List EventList) (ss : List ℚ) (os : List ℤ) :
    (ss.length ≤ gs.length → os.length ≤ gs.length →
      ∃ rs, speedMultiplyGroups gs ss os = .ok rs ∧ rs.length = gs.length ∧
        ∀ i, ss.length ≤ i → os.length ≤ i → rs[i]? = gs[i]?) ∧
    ((gs.length < ss.length ∨ gs.length < os.length) →
      speedMultiplyGroups gs ss os = .error .attributeError) := by
  induction gs generalizing ss os with
  | nil =>
    constructor
    · intro hs ho
      have hss : ss = [] := List.length_eq_zero.mp (Nat.le_zero.mp hs)
      have hos : os = [] := List.length_eq_zero.mp (Nat.le_zero.mp ho)
      subst hss
      subst hos
      exact ⟨[], rfl, rfl, fun i _ _ => rfl⟩
    · intro h
      rcases h with h | h
      · cases ss with
        | nil => simp at h
        | cons s ss' => cases os <;> rfl
      · cases os with
        | nil => simp at h
        | cons t os' => cases ss <;> rfl
  | cons g gs ih =>
    have hstep : ∀ (s : List ℚ) (t : List ℤ),
        speedMultiplyGroups (g :: gs) s t =
          (g.speed_multiply (s.headD 1) t.head?).bind (fun x =>
            (speedMultiplyGroups gs s.tail t.tail).bind
              (fun rest => Except.ok (x :: rest))) := fun _ _ => rfl
    constructor
    · intro hs ho
      simp only [List.length_cons] at hs ho
      obtain ⟨m, hm⟩ := speed_multiply_isOk g (ss.headD 1) os.head?
      obtain ⟨rs, hrs, hlen, hidx⟩ := (ih ss.tail os.tail).1
        (by rw [List.length_tail]; omega) (by rw [List.length_tail]; omega)
      refine ⟨m :: rs, ?_, by simp [hlen], ?_⟩
      · rw [hstep, hm, hrs]
        rfl
      · intro i hsi hoi
        cases i with
        | zero =>
          have hss : ss = [] := List.length_eq_zero.mp (Nat.le_zero.mp hsi)
          have hos : os = [] := List.length_eq_zero.mp (Nat.le_zero.mp hoi)
          subst hss
          subst hos
          simp only [List.headD_nil, List.head?_nil] at hm
          rw [speed_multiply_one g none] at hm
          injection hm with hgm
          subst hgm
          simp
        | succ j =>
          have hj := hidx j (by rw [List.length_tail]; omega)
            (by rw [List.length_tail]; omega)
          simpa using hj
    · intro h
      simp only [List.length_cons] at h
      obtain ⟨m, hm⟩ := speed_multiply_isOk g (ss.headD 1) os.head?
      have hrec := (ih ss.tail os.tail).2 (by
        rcases h with h | h
        · exact Or.inl (by rw [List.length_tail]; omega)
        · exact Or.inr (by rw [List.length_tail]; omega))
      rw [hstep, hm, hrec]
      rfl

theorem c2_witness :
    ∃ rs, speedMultiplyGroups [EventList.mk [mkE 0] none] [] [] = .ok rs ∧
      rs.length = [EventList.mk [mkE 0] none].length ∧
      ∀ i, ([] : List ℚ).length ≤ i → ([] : List ℤ).length ≤ i →
        rs[i]? = [EventList.mk [mkE 0] none][i]? :=
  (c2_amended [EventList.mk [mkE 0] none] [] []).1 (by simp) (by simp)

theorem splinters_length (e : Event) (step : ℚ) :
    ∀ (n : ℕ) (loc : ℚ), (splinters e step n loc).length = n
  | 0, _ => rfl
  | n + 1, loc => by simp [splinters, splinters_length e step n (loc + step)]

theorem splinters_kind (e : Event) (step : ℚ) :
    ∀ (n : ℕ) (loc : ℚ) (x : Event), x ∈ splinters e step n loc → x.kind = e.kind
  | 0, loc, x, h => by simp [splinters] at h
  | n + 1, loc, x, h => by
    rcases List.mem_cons.mp h with rfl | h
    · rfl
    · exact splinters_kind e step n (loc + step) x h

theorem splitRun_kind (p : ℕ) (c : String) :
    ∀ (run : List Event), (∀ x ∈ run, x.kind = c) → ∀ x ∈ splitRun p run, x.kind = c
  | [], _, x, hx => by simp [splitRun] at hx
  | [e], h, x, hx => by
    simp only [splitRun, List.mem_singleton] at hx
    subst hx
    exact h x (by simp)
  | e :: f :: rest, h, x, hx => by
    simp only [splitRun] at hx
    rcases List.mem_cons.mp hx with rfl | hx
    · exact h x (by simp)
    · rcases List.mem_append.mp hx with hx | hx
      · rw [splinters_kind e _ (p - 1) e.location x hx]
        exact h e (by simp)
      · exact splitRun_kind p c (f :: rest)
          (fun y hy => h y (List.mem_cons.mpr (Or.inr hy))) x hx

theorem splitRun_ne_nil (p : ℕ) : ∀ (run : List Event), run ≠ [] → splitRun p run ≠ []
  | [], h => absurd rfl h
  | [_], _ => by simp [splitRun]
  | _ :: _ :: _, _ => by simp [splitRun]

theorem mergeAux_append (k : ℕ) (o : ℤ) :
    ∀ (xs ys : List Event) (i : ℕ),
      mergeAux k o i (xs ++ ys) = mergeAux k o i xs ++ mergeAux k o (i + xs.length) ys
  | [], ys, i => by simp [mergeAux]
  | x :: xs, ys, i => by
    have hrec := mergeAux_append k o xs ys (i + 1)
    simp only [List.cons_append, mergeAux, List.length_cons]
    have hlen : i + (xs.length + 1) = i + 1 + xs.length := by omega
    rw [hlen]
    by_cases h : ((i : ℤ) - o) % (k : ℤ) = 0 <;> simp [h, hrec]

theorem mergeAux_all_skip (p : ℕ) :
    ∀ (ws : List Event) (m : ℕ),
      (∀ j, j < ws.length → (((m + j : ℕ) : ℤ)) % (p : ℤ) ≠ 0) →
      mergeAux p 0 m ws = []
  | [], _, _ => rfl
  | w :: ws, m, h => by
    have h0 := h 0 (by simp)
    simp only [Nat.add_zero] at h0
    simp only [mergeAux, sub_zero]
    rw [if_neg h0]
    refine mergeAux_all_skip p ws (m + 1) ?_
    intro j hj
    have hj1 := h (j + 1) (by simpa using Nat.succ_lt_succ hj)
    rw [show m + 1 + j = m + (j + 1) by omega]
    exact hj1

theorem mergeAux_splitRun (p : ℕ) (hp : 2 ≤ p) :
    ∀ (run : List Event) (i : ℕ), mergeAux p 0 (p * i) (splitRun p run) = run
  | [], _ => rfl
  | [e], i => by
    simp only [splitRun, mergeAux, sub_zero]
    rw [if_pos (by push_cast; exact Int.mul_emod_right _ _)]
  | e :: f :: rest, i => by
    have hT := mergeAux_splitRun p hp (f :: rest) (i + 1)
    simp only [splitRun, mergeAux, sub_zero]
    rw [if_pos (by push_cast; exact Int.mul_emod_right _ _)]
    rw [mergeAux_append]
    have hskip : mergeAux p 0 (p * i + 1)
        (splinters e ((f.location - e.location) / (p : ℚ)) (p - 1) e.location) = [] := by
      refine mergeAux_all_skip p _ (p * i + 1) ?_
      rw [splinters_length]
      intro j hj
      push_cast
      rw [show (p : ℤ) * i + 1 + j = (1 + j) + (p : ℤ) * i by ring,
        Int.add_mul_emod_self_left, Int.emod_eq_of_lt (by omega) (by omega)]
      omega
    rw [hskip, splinters_length]
    rw [show p * i + 1 + (p - 1) = p * (i + 1) by rw [Nat.mul_succ, Nat.add_assoc]; omega]
    simp [hT]

theorem mergeRun_splitRun (p : ℕ) (hp : 2 ≤ p) :
    ∀ (run : List Event), mergeRun p 0 (splitRun p run) = run
  | [] => rfl
  | [e] => by simp [splitRun, mergeRun]
  | e :: f :: rest => by
    have hlen : (splitRun p (e :: f :: rest)).length ≠ 1 := by
      have hT : 0 < (splitRun p (f :: rest)).length :=
        List.length_pos.mpr (splitRun_ne_nil p (f :: rest) (by simp))
      simp only [splitRun, List.length_cons, List.length_append, splinters_length]
      omega
    rw [mergeRun, if_neg hlen]
    have h0 := mergeAux_splitRun p hp (e :: f :: rest) 0
    rw [Nat.mul_zero] at h0
    exact h0

theorem split_merge_roundtrip (p : ℕ) (hp : 2 ≤ p) (c : String) (es : List Event)
    (hhom : ∀ x ∈ es, x.kind = c) :
    mergeEvents p 0 (splitEvents p es) = es := by
  cases hes : es with
  | nil => rfl
  | cons e es' =>
    rw [← hes]
    have hgb : groupByKind es = [es] :=
      groupByKind_homog es c hhom (by rw [hes]; simp)
    have hsplit : splitEvents p es = splitRun p es := by
      rw [splitEvents, hgb]
      simp
    rw [hsplit]
    have hkinds : ∀ x ∈ splitRun p es, x.kind = c := splitRun_kind p c es hhom
    have hne2 : splitRun p es ≠ [] :=
      splitRun_ne_nil p es (by rw [hes]; simp)
    have hgb2 : groupByKind (splitRun p es) = [splitRun p es] :=
      groupByKind_homog _ c hkinds hne2
    rw [mergeEvents, hgb2]
    simp only [List.map_cons, List.map_nil, List.flatten_cons, List.flatten_nil,
      List.append_nil]
    exact mergeRun_splitRun p hp es

/-- C8: on a single homogeneous run (all events of one concrete kind),
`speed_multiply(p)` for integer `p > 1` followed by
`speed_multiply(1/p, offset=0)` reproduces exactly the original events: the
merge keeps the run positions `0, p, 2p, …`, which are precisely the
original events, and removes the synthesized interior points. -/
theorem c8_confirmed (l : EventList) (c : String) (q r : ℚ)
    (hhom : ∀ x ∈ l.events, x.kind = c)
    (h1 : q.den = 1) (h2 : 1 < q.num)
    (h3 : r.num = 1) (h4 : (r.den : ℤ) = q.num) :
    ∃ m, l.speed_multiply q none = .ok m ∧ m.speed_multiply r (some 0) = .ok l := by
  have hp : 2 ≤ q.num.toNat := by omega
  refine ⟨⟨splitEvents q.num.toNat l.events, l.end_⟩,
    speed_multiply_split l q none h1 h2, ?_⟩
  have h5 : 1 < r.den := by omega
  rw [speed_multiply_merge _ r (some 0) h3 h5]
  have hrden : r.den = q.num.toNat := by omega
  rw [hrden]
  show Except.ok
      (EventList.mk (mergeEvents q.num.toNat 0 (splitEvents q.num.toNat l.events)) l.end_) =
    Except.ok l
  rw [split_merge_roundtrip q.num.toNat hp c l.events hhom]

theorem c8_witness :
    ∃ m, (EventList.mk [mkE 0, mkE 1, mkE 2] (some 4)).speed_multiply 2 none = .ok m ∧
      m.speed_multiply (1/2) (some 0) = .ok (EventList.mk [mkE 0, mkE 1, mkE 2] (some 4)) :=
  c8_confirmed (EventList.mk [mkE 0, mkE 1, mkE 2] (some 4)) "Event" 2 (1/2)
    (by decide) rfl (by decide) one_half_num (by rw [one_half_den]; rfl)

/-- C9 counterexample: for the empty `EventList` with `end = 4`,
`group_by_type()` has no groups, so the flattened result's `end` is `None`
(`self[-1].end if self else None`) and the round trip does not return an
`EventList` equal to the original. -/
theorem c9_counterexample :
    ((EventList.mk [] (some 4)).group_by_type []).flatten = EventList.mk [] none ∧
    EventList.eq (((EventList.mk [] (some 4)).group_by_type []).flatten)
      (EventList.mk [] (some 4)) = false := by
  decide

/-- C9 (amended): `group_by_type()` partitions the events, in original
order, into maximal contiguous runs of identical concrete kind (kinds
`[A,A,B,B,A]` give 3 groups of sizes `[2,2,1]`), and `flatten()` of the
unmodified result equals the original whenever the `EventList` is nonempty;
for an empty `EventList` the flattened result's `end` is unset. -/
theorem c9_amended (l : EventList) :
    ((l.group_by_type []).groups.map EventList.events).flatten = l.events ∧
    (∀ g ∈ (l.group_by_type []).groups,
      g.events ≠ [] ∧ ∀ x ∈ g.events, x.kind = headKind g.events) ∧
    List.Chain' (fun g h => headKind g.events ≠ headKind h.events)
      (l.group_by_type []).groups ∧
    ((EventList.mk [⟨"A", 0, 0⟩, ⟨"A", 1, 0⟩, ⟨"B", 2, 0⟩, ⟨"B", 3, 0⟩, ⟨"A", 4, 0⟩]
        none).group_by_type []).groups.map (fun g => g.events.length) = [2, 2, 1] ∧
    (l.events ≠ [] → (l.group_by_type []).flatten = l) := by
  obtain ⟨hmem, hchain⟩ := groupByKind_chunks l.events
  have hgroups : (l.group_by_type []).groups =
      (groupByKind l.events).map (fun run => EventList.mk run l.end_) := rfl
  refine ⟨?_, ?_, ?_, ?_, ?_⟩
  · rw [hgroups, events_of_mapped]
    exact groupByKind_flatten l.events
  · rw [hgroups]
    intro g hg
    rcases List.mem_map.mp hg with ⟨run, hrun, rfl⟩
    exact hmem run hrun
  · rw [hgroups, List.chain'_map]
    exact hchain
  · decide
  · intro hne
    have hflat := groupByKind_flatten l.events
    have hgne : groupByKind l.events ≠ [] := by
      intro h
      rw [h] at hflat
      exact hne hflat.symm
    have hgl : l.group_by_type [] =
        EventGroupList.mk
          ((groupByKind l.events).map (fun run => EventList.mk run l.end_))
          ((groupByKind l.events).map (fun run => EventList.mk run l.end_)) := rfl
    rw [hgl]
    simp only [EventGroupList.flatten]
    rw [events_of_mapped, hflat, end_of_mapped (groupByKind l.events) l.end_ _ hgne]

theorem c9_witness :
    ((EventList.mk [mkE 0] (some 4)).group_by_type []).flatten =
      EventList.mk [mkE 0] (some 4) :=
  (c9_amended (EventList.mk [mkE 0] (some 4))).2.2.2.2 (by decide)

end Mugen
